import Mathlib

/-!
Verification of the fixed-point arithmetic engine and clocked models of this
repository: the signed fixed-point primitives (`fixed_mul`, `to_fixed`,
`to_float`) shared by the exponential approximator (`exp.py`) and the
Izhikevich spiking-neuron module (`neuron.py`), the combinational derivative
computations, and the synchronous register-update discipline with
asynchronous reset.

Real-valued inputs (Python floats) are modelled as exact rationals `ℚ`;
machine integers are unbounded `ℤ` (Python integers are arbitrary
precision).  Python's arithmetic right shift `>>` on integers is `ℤ`'s
`>>>` (`Int.shiftRight`), which is floor division by a power of two.
-/

/-- Truncation toward zero of a rational, the model of Python 2's `int(...)`
applied to a real value: `int(1.8) = 1`, `int(-1.8) = -1`. -/
def ratTrunc (q : ℚ) : ℤ := if 0 ≤ q then ⌊q⌋ else ⌈q⌉

/-- Round half away from zero, the model of Python 2's `round(...)`:
`round(0.5) = 1`, `round(-0.5) = -1`. -/
def pyRound (q : ℚ) : ℤ := if 0 ≤ q then ⌊q + 1 / 2⌋ else ⌈q - 1 / 2⌉

/-! ## `src/izhikevitch/neuron.py`, lines 15–28: free fixed-point helpers -/

/-- `neuron.py` line 15: `fixed_mul(x, y, Fshift) = (x * y) >> Fshift`. -/
def fixed_mul (x y : ℤ) (Fshift : ℕ) : ℤ := (x * y) >>> Fshift

/-- `neuron.py` line 21: `to_fixed(x, Fshift) = int(x * (1 << Fshift))`
(truncation toward zero). -/
def to_fixed (x : ℚ) (Fshift : ℕ) : ℤ := ratTrunc (x * 2 ^ Fshift)

/-- `neuron.py` line 26: `to_float(x, Fshift) = int(x) / float(1 << Fshift)`. -/
def to_float (x : ℤ) (Fshift : ℕ) : ℚ := (x : ℚ) / 2 ^ Fshift

/-! ## `src/izhikevitch/neuron.py`, lines 36–52: Izhikevich derivatives -/

/-- `neuron.py` lines 36–45, `compute_dv`: `(dv/dt) * dt`. -/
def compute_dv (I u v dt : ℤ) (Fshift : ℕ) : ℤ :=
  let c1 := to_fixed 0.04 Fshift
  let c2 := to_fixed 5 Fshift
  let c3 := to_fixed 140 Fshift
  let v2 := fixed_mul v v Fshift
  fixed_mul dt (fixed_mul c1 v2 Fshift + fixed_mul c2 v Fshift + c3 - u + I) Fshift

/-- `neuron.py` lines 48–52, `compute_du`: `(du/dt) * dt`. -/
def compute_du (u v a b dt : ℤ) (Fshift : ℕ) : ℤ :=
  let b_v := fixed_mul b v Fshift
  let dt_a := fixed_mul dt a Fshift
  fixed_mul dt_a (b_v - u) Fshift

/-! ## `src/izhikevitch/neuron.py`, lines 64–106: the clocked neuron module -/

/-- The fixed-point-encoded neuron parameters, converted once at module
construction (`neuron.py` lines 73–77). -/
structure NeuronFixed where
  a_fix : ℤ
  b_fix : ℤ
  c_fix : ℤ
  d_fix : ℤ
  dt_fix : ℤ
deriving DecidableEq

/-- `neuron.py` lines 73–77: parameter conversion at construction. -/
def NeuronFixed.ofParams (a b c d dt : ℚ) (Fshift : ℕ) : NeuronFixed :=
  ⟨to_fixed a Fshift, to_fixed b Fshift, to_fixed c Fshift,
   to_fixed d Fshift, to_fixed dt Fshift⟩

/-- `neuron.py` line 79: `threshold = to_fixed(30.0, Fshift)`. -/
def threshold (Fshift : ℕ) : ℤ := to_fixed 30.0 Fshift

/-- The registered state of the neuron module: membrane potential `v`,
recovery variable `u`, and the spike output register. -/
structure NState where
  v : ℤ
  u : ℤ
  out : Bool
deriving DecidableEq

/-- The reset values of the three registers (`neuron.py` lines 83–84 and the
testbench's `Signal(bool(0))` output): `v` starts at `c_fix`, `u` at
`fixed_mul(c_fix, b_fix)` (the signal `v` holds `c_fix` when `u` is built),
the output at `False`.  `always_seq` restores exactly these initial values
whenever the asynchronous reset is asserted. -/
def neuronResetState (p : NeuronFixed) (Fshift : ℕ) : NState :=
  ⟨p.c_fix, fixed_mul p.c_fix p.b_fix Fshift, false⟩

/-- One activation of the `@always_seq(clk.posedge, reset=reset)` block
(`neuron.py` lines 86–98).  With reset asserted every register takes its
initial value; otherwise all three `.next` values are computed from the same
pre-edge state and committed together. -/
def neuronAdvance (p : NeuronFixed) (Fshift : ℕ) (reset : Bool) (I : ℤ)
    (s : NState) : NState :=
  if reset then neuronResetState p Fshift
  else
    let dv := compute_dv I s.u s.v p.dt_fix Fshift
    let updated_v := s.v + dv
    if updated_v > threshold Fshift then
      ⟨p.c_fix, s.u + p.d_fix, true⟩
    else
      let du := compute_du s.u s.v p.a_fix p.b_fix p.dt_fix Fshift
      ⟨updated_v, s.u + du, false⟩

/-- A whole execution: the neuron module driven through a sequence of clock
ticks, each carrying the sampled reset signal and input current. -/
def neuronRun (p : NeuronFixed) (Fshift : ℕ) (inputs : List (Bool × ℤ))
    (s : NState) : NState :=
  inputs.foldl (fun st ri => neuronAdvance p Fshift ri.1 ri.2 st) s

/-! ## `src/exp/exp.py`, lines 6–38: the `FixedDef` class -/

/-- `exp.py` lines 6–19, class `FixedDef`: signed fixed-point format with
`m` bits before and `f` bits after the radix point. -/
structure FixedDef where
  m : ℕ
  f : ℕ
  max_val : ℤ
  min_val : ℤ
deriving DecidableEq

/-- `exp.py` lines 9–19, `FixedDef.__init__`: stores `m` and `f` and derives
`max_val = 1 << (m + f + 1)` and `min_val = -max_val`.  The constructor
performs no validation and can not fail. -/
def FixedDef.init (m f : ℕ) : FixedDef :=
  { m := m, f := f
    max_val := 2 ^ (m + f + 1)
    min_val := -(2 ^ (m + f + 1) : ℤ) }

/-- The values an `intbv(·, min=d.min_val, max=d.max_val)` signal built by
`make_signal` (`exp.py` line 21) may hold: myhdl's `max` bound is exclusive. -/
def FixedDef.inRange (d : FixedDef) (x : ℤ) : Prop :=
  d.min_val ≤ x ∧ x < d.max_val

/-- `exp.py` lines 24–30, `FixedDef.fixed_mul`: the combinational product
`z.next = (x * y) >> self.f`. -/
def FixedDef.fixed_mul (d : FixedDef) (x y : ℤ) : ℤ := (x * y) >>> d.f

/-- `exp.py` lines 32–34, `FixedDef.to_fixed`:
`int(round(x * (1 << self.f)))` (round to nearest, half away from zero). -/
def FixedDef.to_fixed (d : FixedDef) (x : ℚ) : ℤ := pyRound (x * 2 ^ d.f)

/-- `exp.py` lines 36–38, `FixedDef.to_float`:
`int(x) / float(1 << self.f)`. -/
def FixedDef.to_float (d : FixedDef) (x : ℤ) : ℚ := (x : ℚ) / 2 ^ d.f

/-! ## `src/exp/exp.py`, lines 41–62: combinational exponential -/

/-- `exp.py` lines 41–62, `ExpComb`: the combinational Taylor evaluation of
`e^x`.  It computes `x2 = fixed_mul(x, x)`, `x3 = fixed_mul(x2, x)`,
`x3_6 = fixed_mul(x3, to_fixed(1/6))` and outputs
`y = (1 << f) + x + (x2 >> 1) + x3_6` — the cubic term is included. -/
def ExpComb (d : FixedDef) (x : ℤ) : ℤ :=
  let x2 := d.fixed_mul x x
  let x3 := d.fixed_mul x2 x
  let sixth := d.to_fixed (1 / 6)
  let x3_6 := d.fixed_mul x3 sixth
  2 ^ d.f + x + (x2 >>> 1) + x3_6

/-! ## Helper lemmas -/

/-- `ℤ`'s arithmetic right shift is floor division by the power of two,
stated over `ℚ`. -/
theorem shiftRight_eq_floor (a : ℤ) (n : ℕ) :
    a >>> n = ⌊(a : ℚ) / (2 ^ n : ℚ)⌋ := by
  rw [Int.shiftRight_eq_div_pow]
  rw [show ((2 : ℚ) ^ n) = ((2 ^ n : ℕ) : ℚ) by push_cast; ring]
  exact (Rat.floor_intCast_div_natCast a (2 ^ n)).symm

/-- The truncating fixed-point multiply is the floor of the exact rescaled
product. -/
theorem fixedMul_eq_floor (x y : ℤ) (f : ℕ) :
    fixed_mul x y f = ⌊((x * y : ℤ) : ℚ) / (2 ^ f : ℚ)⌋ :=
  shiftRight_eq_floor (x * y) f

/-- Truncation toward zero is exact on integers. -/
theorem ratTrunc_intCast (k : ℤ) : ratTrunc (k : ℚ) = k := by
  unfold ratTrunc
  rcases le_or_lt 0 (k : ℚ) with h | h
  · rw [if_pos h, Int.floor_intCast]
  · rw [if_neg (not_le.mpr h), Int.ceil_intCast]

/-- Rounding half away from zero is exact on integers. -/
theorem pyRound_intCast (k : ℤ) : pyRound (k : ℚ) = k := by
  unfold pyRound
  rcases le_or_lt 0 (k : ℚ) with h | h
  · rw [if_pos h]
    rw [Int.floor_eq_iff]
    constructor
    · linarith
    · linarith
  · rw [if_neg (not_le.mpr h)]
    rw [Int.ceil_eq_iff]
    constructor
    · linarith
    · linarith

/-- The truncating `to_fixed` of `neuron.py` is exact on integer inputs. -/
theorem to_fixed_intCast (k : ℤ) (f : ℕ) : to_fixed (k : ℚ) f = k * 2 ^ f := by
  unfold to_fixed
  rw [show ((k : ℚ) * 2 ^ f) = ((k * 2 ^ f : ℤ) : ℚ) by push_cast; ring]
  exact ratTrunc_intCast (k * 2 ^ f)

/-- The rounding `to_fixed` of `exp.py` is exact on integer inputs. -/
theorem FixedDef.to_fixed_exact_on_int (d : FixedDef) (k : ℤ) :
    d.to_fixed (k : ℚ) = k * 2 ^ d.f := by
  unfold FixedDef.to_fixed
  rw [show ((k : ℚ) * 2 ^ d.f) = ((k * 2 ^ d.f : ℤ) : ℚ) by push_cast; ring]
  exact pyRound_intCast (k * 2 ^ d.f)

/-- Truncation toward zero lands strictly within one unit of its input. -/
theorem abs_ratTrunc_sub_lt (q : ℚ) : |(ratTrunc q : ℚ) - q| < 1 := by
  unfold ratTrunc
  rcases le_or_lt 0 q with h | h
  · rw [if_pos h, abs_lt]
    constructor
    · have := Int.lt_floor_add_one q
      linarith
    · have := Int.floor_le q
      linarith
  · rw [if_neg (not_le.mpr h), abs_lt]
    constructor
    · have := Int.le_ceil q
      linarith
    · have := Int.ceil_lt_add_one q
      linarith

/-- The encoding of `30.0` used as spike threshold is exact. -/
theorem threshold_eq (f : ℕ) : threshold f = 30 * 2 ^ f := by
  unfold threshold
  rw [show (30.0 : ℚ) = ((30 : ℤ) : ℚ) by norm_num]
  exact to_fixed_intCast 30 f

/-- Rounding half away from zero lands within half a unit of its input. -/
theorem abs_pyRound_sub_le (q : ℚ) : |(pyRound q : ℚ) - q| ≤ 1 / 2 := by
  unfold pyRound
  rcases le_or_lt 0 q with h | h
  · rw [if_pos h, abs_le]
    constructor
    · have := Int.lt_floor_add_one (q + 1 / 2)
      linarith
    · have := Int.floor_le (q + 1 / 2)
      linarith
  · rw [if_neg (not_le.mpr h), abs_le]
    constructor
    · have := Int.le_ceil (q - 1 / 2)
      linarith
    · have := Int.ceil_lt_add_one (q - 1 / 2)
      linarith

/-! ## Claim theorems -/

/-- C3: for every pair of integers `x` and `y` (including negative values)
and every fraction width `f`, both fixed-point multiply entry points
(`neuron.py`'s `fixed_mul` and `exp.py`'s `FixedDef.fixed_mul`) compute
exactly `floor((x * y) / 2^f)`. -/
theorem multiply_is_floor_div (x y : ℤ) (f : ℕ) (d : FixedDef) :
    fixed_mul x y f = ⌊((x * y : ℤ) : ℚ) / (2 ^ f : ℚ)⌋ ∧
    d.fixed_mul x y = ⌊((x * y : ℤ) : ℚ) / (2 ^ d.f : ℚ)⌋ :=
  ⟨fixedMul_eq_floor x y f, fixedMul_eq_floor x y d.f⟩

/-- C8 (counterexample): the claimed magnitude bound
`|multiply(x, y)| <= |x * y| / 2^f` fails at `x = 1`, `y = -1`, `f = 8`:
the truncation returns `-1`, whose magnitude `1` exceeds `1/256`. -/
theorem multiply_magnitude_cex :
    ¬ (|((fixed_mul 1 (-1) 8 : ℤ) : ℚ)| ≤ |((1 * (-1) : ℤ) : ℚ)| / 2 ^ 8) := by
  have h : fixed_mul 1 (-1) 8 = -1 := by decide
  rw [h]
  norm_num

/-- C8 (amended): the truncating multiply never increases the *value*
relative to the exact rescaled product — `multiply(x, y) <= (x * y) / 2^f`
over `ℚ` for both entry points.  (The bias is downward in value, toward
`-∞`; for negative products this can increase the magnitude.) -/
theorem multiply_truncation_downward (x y : ℤ) (f : ℕ) (d : FixedDef) :
    ((fixed_mul x y f : ℤ) : ℚ) ≤ ((x * y : ℤ) : ℚ) / 2 ^ f ∧
    ((d.fixed_mul x y : ℤ) : ℚ) ≤ ((x * y : ℤ) : ℚ) / 2 ^ d.f := by
  refine ⟨?_, ?_⟩
  · rw [fixedMul_eq_floor]
    exact Int.floor_le _
  · show ((fixed_mul x y d.f : ℤ) : ℚ) ≤ _
    rw [fixedMul_eq_floor]
    exact Int.floor_le _

/-- C10: multiplying by the fixed-point encoding of `1.0` (which is
`1 << f`) is the exact identity, including for negative `x`, for both
multiply entry points. -/
theorem multiply_by_one_identity (x : ℤ) (f : ℕ) (d : FixedDef) :
    fixed_mul x (to_fixed 1 f) f = x ∧ d.fixed_mul x (d.to_fixed 1) = x := by
  have key : ∀ g : ℕ, fixed_mul x (2 ^ g) g = x := by
    intro g
    rw [fixedMul_eq_floor]
    rw [show (((x * 2 ^ g : ℤ) : ℚ) / (2 ^ g : ℚ)) = (x : ℚ) by
      push_cast
      field_simp]
    exact Int.floor_intCast x
  constructor
  · rw [show to_fixed (1 : ℚ) f = 2 ^ f by simpa using to_fixed_intCast 1 f]
    exact key f
  · show fixed_mul x (d.to_fixed 1) d.f = x
    rw [show d.to_fixed (1 : ℚ) = 2 ^ d.f by simpa using d.to_fixed_exact_on_int 1]
    exact key d.f

/-- C2: the membrane-potential increment equals
`dv = fixed_mul(dt, fixed_mul(c1, fixed_mul(v, v)) + fixed_mul(c2, v) + c3
- u + I)` where `c1, c2, c3` encode `0.04`, `5` and `140` at width `f`
(`5` and `140` encode exactly as `5 * 2^f` and `140 * 2^f`), and the
additions and subtractions are exact integer operations. -/
theorem compute_dv_formula (I u v dt : ℤ) (f : ℕ) :
    compute_dv I u v dt f =
      fixed_mul dt
        (fixed_mul (to_fixed 0.04 f) (fixed_mul v v f) f +
          fixed_mul (5 * 2 ^ f) v f + 140 * 2 ^ f - u + I) f := by
  have h5 : to_fixed (5 : ℚ) f = 5 * 2 ^ f := by simpa using to_fixed_intCast 5 f
  have h140 : to_fixed (140 : ℚ) f = 140 * 2 ^ f := by
    simpa using to_fixed_intCast 140 f
  simp only [compute_dv, h5, h140]

/-- C1: one clocked step without reset commits the spike branch
(`next_v = c_fix`, `next_u = u + d_fix`, `spiked = true`) exactly when
`v + dv` strictly exceeds the fixed-point encoding `30 * 2^f` of `30.0`,
and otherwise commits `next_v = v + dv`,
`next_u = u + fixed_mul(fixed_mul(dt, a), fixed_mul(b, v) - u)` with
`spiked = false`, all computed from the pre-edge `v` and `u`. -/
theorem spike_rule (p : NeuronFixed) (f : ℕ) (I : ℤ) (s : NState) :
    neuronAdvance p f false I s =
      if s.v + compute_dv I s.u s.v p.dt_fix f > 30 * 2 ^ f then
        ⟨p.c_fix, s.u + p.d_fix, true⟩
      else
        ⟨s.v + compute_dv I s.u s.v p.dt_fix f,
          s.u + fixed_mul (fixed_mul p.dt_fix p.a_fix f)
            (fixed_mul p.b_fix s.v f - s.u) f, false⟩ := by
  simp only [neuronAdvance, Bool.false_eq_true, if_false, compute_du,
    threshold_eq]

/-- C7: asserting the asynchronous reset on any tick of any execution
forces the registers to `v = c_fix`, `u = fixed_mul(b_fix, c_fix)` (the
fixed-point product of `b` and `c`) and a low spike output, regardless of
the prior state and of any pending next-state value. -/
theorem reset_forces_state (p : NeuronFixed) (f : ℕ) (pre : List (Bool × ℤ))
    (I : ℤ) (s : NState) :
    neuronRun p f (pre ++ [(true, I)]) s =
      ⟨p.c_fix, fixed_mul p.b_fix p.c_fix f, false⟩ := by
  have h : ∀ t : NState, neuronAdvance p f true I t = neuronResetState p f := by
    intro t
    simp [neuronAdvance]
  unfold neuronRun
  rw [List.foldl_append]
  simp only [List.foldl_cons, List.foldl_nil]
  rw [h]
  unfold neuronResetState fixed_mul
  rw [Int.mul_comm]

/-- C5 (counterexample): the claimed derived bounds
`minValue = -(1 << (m+f))`, `maxValue = (1 << (m+f)) - 1` fail at the
concrete format `(m = 1, f = 8)`: the constructor actually derives
`max_val = 1 << (m+f+1) = 1024` and `min_val = -1024`. -/
theorem format_bounds_cex :
    ¬ ((FixedDef.init 1 8).min_val = -(2 ^ (1 + 8)) ∧
       (FixedDef.init 1 8).max_val = 2 ^ (1 + 8) - 1) := by
  decide

/-- C5 (amended): the constructor derives `max_val = 1 << (m+f+1)` and
`min_val = -(1 << (m+f+1))`, and a value a `make_signal` register may hold
is an integer in `[min_val, max_val - 1]` (the `intbv` upper bound being
exclusive). -/
theorem format_bounds (m f : ℕ) (x : ℤ) :
    (FixedDef.init m f).min_val = -(2 ^ (m + f + 1)) ∧
    (FixedDef.init m f).max_val = 2 ^ (m + f + 1) ∧
    ((FixedDef.init m f).inRange x ↔
      -(2 ^ (m + f + 1)) ≤ x ∧ x ≤ 2 ^ (m + f + 1) - 1) := by
  refine ⟨rfl, rfl, ?_⟩
  simp only [FixedDef.inRange, FixedDef.init]
  generalize (2 : ℤ) ^ (m + f + 1) = N
  omega

/-- C9 (counterexample): constructing a format with `f = 0` is not rejected:
`FixedDef(1, 0)` succeeds, derives `max_val = 1 << 2 = 4`, and its multiply
operates normally afterwards. -/
theorem no_reject_f0_cex :
    FixedDef.init 1 0 = ⟨1, 0, 4, -4⟩ ∧
    (FixedDef.init 1 0).fixed_mul 3 5 = 15 := by
  decide

/-- C9 (amended): the constructor performs no validation and accepts
`f = 0` for every `m`; the resulting format is well defined (its multiply
degenerates to exact integer multiplication, a shift by zero bits), so
nothing fails fast at construction time. -/
theorem no_reject_f0 (m : ℕ) (x y : ℤ) :
    (FixedDef.init m 0).f = 0 ∧
    (FixedDef.init m 0).max_val = 2 ^ (m + 1) ∧
    (FixedDef.init m 0).fixed_mul x y = x * y := by
  refine ⟨rfl, rfl, ?_⟩
  show (x * y) >>> (0 : ℕ) = x * y
  rw [Int.shiftRight_eq_div_pow]
  simp

/-- C4 (counterexample): the round-trip bound `2^-(f+1)` fails for
`neuron.py`'s truncating conversion entry point at `r = 9/10`, `f = 1`:
`to_fixed` truncates `1.8` to `1`, `to_float` gives back `1/2`, and
`|1/2 - 9/10| = 2/5 > 1/4`. -/
theorem round_trip_cex :
    ¬ (|to_float (to_fixed (9 / 10 : ℚ) 1) 1 - 9 / 10| ≤ 1 / 2 ^ (1 + 1)) := by
  have h : to_fixed (9 / 10 : ℚ) 1 = 1 := by
    unfold to_fixed ratTrunc
    rw [if_pos (by norm_num)]
    rw [show ((9 : ℚ) / 10 * 2 ^ 1) = ((9 : ℤ) : ℚ) / ((5 : ℕ) : ℚ) by norm_num]
    rw [Rat.floor_intCast_div_natCast]
    decide
  rw [h]
  unfold to_float
  rw [show |((1 : ℤ) : ℚ) / 2 ^ 1 - 9 / 10| = 2 / 5 by
    rw [abs_of_neg (by norm_num)]
    norm_num]
  norm_num

/-- C4 (amended): for every rational `r`, the rounding conversion of
`exp.py` round-trips within `2^-(f+1)`, while the truncating conversion of
`neuron.py` only round-trips strictly within `2^-f`. -/
theorem round_trip_bounds (r : ℚ) (d : FixedDef) (Fshift : ℕ) :
    |d.to_float (d.to_fixed r) - r| ≤ 1 / 2 ^ (d.f + 1) ∧
    |to_float (to_fixed r Fshift) Fshift - r| < 1 / 2 ^ Fshift := by
  constructor
  · unfold FixedDef.to_float FixedDef.to_fixed
    have h := abs_pyRound_sub_le (r * 2 ^ d.f)
    have hp : (0 : ℚ) < 2 ^ d.f := by positivity
    rw [show ((pyRound (r * 2 ^ d.f) : ℚ) / 2 ^ d.f - r)
        = ((pyRound (r * 2 ^ d.f) : ℚ) - r * 2 ^ d.f) / 2 ^ d.f by
      field_simp
      ring]
    rw [abs_div, abs_of_pos hp,
      show (1 : ℚ) / 2 ^ (d.f + 1) = (1 / 2) / 2 ^ d.f by rw [pow_succ]; ring]
    gcongr
  · unfold to_float to_fixed
    have h := abs_ratTrunc_sub_lt (r * 2 ^ Fshift)
    have hp : (0 : ℚ) < 2 ^ Fshift := by positivity
    rw [show ((ratTrunc (r * 2 ^ Fshift) : ℚ) / 2 ^ Fshift - r)
        = ((ratTrunc (r * 2 ^ Fshift) : ℚ) - r * 2 ^ Fshift) / 2 ^ Fshift by
      field_simp
      ring]
    rw [abs_div, abs_of_pos hp]
    exact div_lt_div_of_pos_right h hp

/-- At format `(1, 8)` the rounding conversion encodes `0.5` as `128`. -/
theorem toFixed_half_128 : (FixedDef.init 1 8).to_fixed 0.5 = 128 := by
  show pyRound ((0.5 : ℚ) * 2 ^ 8) = 128
  rw [show ((0.5 : ℚ) * 2 ^ 8) = ((128 : ℤ) : ℚ) by norm_num]
  exact pyRound_intCast 128

/-- At format `(1, 8)` the rounding conversion encodes `1/6` as `43`. -/
theorem toFixed_sixth_43 : (FixedDef.init 1 8).to_fixed (1 / 6) = 43 := by
  show pyRound ((1 / 6 : ℚ) * 2 ^ 8) = 43
  unfold pyRound
  rw [if_pos (by norm_num)]
  rw [show ((1 / 6 : ℚ) * 2 ^ 8 + 1 / 2)
      = ((259 : ℤ) : ℚ) / ((6 : ℕ) : ℚ) by norm_num]
  rw [Rat.floor_intCast_div_natCast]
  decide

/-- The combinational exponential at format `(1, 8)` maps `128` to `421`:
`x2 = 64`, `x2 >> 1 = 32`, `x3 = 32`, `x3_6 = (32 * 43) >> 8 = 5`, and
`y = 256 + 128 + 32 + 5`. -/
theorem expComb_at_128 : ExpComb (FixedDef.init 1 8) 128 = 421 := by
  simp only [ExpComb, toFixed_sixth_43]
  decide

/-- C6 (counterexample): with format `(m = 1, f = 8)` and input
`x = toFixed(0.5) = 128`, the combinational evaluator does not produce the
2-term value `416 = 256 + 128 + 32`: `ExpComb` also adds the `x^3/6` term
(`fixed_mul(fixed_mul(x2, x), toFixed(1/6)) = 5`). -/
theorem exp_scenario_cex :
    ¬ (ExpComb (FixedDef.init 1 8) ((FixedDef.init 1 8).to_fixed 0.5) = 416) := by
  rw [toFixed_half_128, expComb_at_128]
  decide

/-- C6 (amended): with format `(m = 1, f = 8)` and input
`x = toFixed(0.5) = 128`, the combinational evaluator produces exactly
`y = 256 + 128 + (toFixed(0.25) >> 1) + 5 = 421`, the extra `5` being the
third-order Taylor term that `ExpComb` includes. -/
theorem exp_scenario_actual :
    ExpComb (FixedDef.init 1 8) ((FixedDef.init 1 8).to_fixed 0.5) = 421 := by
  rw [toFixed_half_128]
  exact expComb_at_128
